import Mathlib

/-!
# Verification of the transcription-tool repository

Shallow embedding of the two scripts of the repository:

* `format-gmr.js` — `extractSpeakers`, `parseTranscript` and the fixed
  document template handed to the docx library;
* the transcribe script (`src/unnamed/part_000`) — CLI argument / file
  checks and the external-engine completion callback.

Strings are modelled as `List Char` internally (`String.data`), with
JavaScript semantics spelled out explicitly: the `\s` / line-terminator
character classes, `String.prototype.trim`, `String.prototype.split('\n')`,
and the two regexes `/^(.+?)\s*\(([^)]+)\)$/` (anchored, non-greedy prefix)
and `/\(([^)]+)\)/g` (global scan).
-/

namespace TranscriptTool

/-- The JavaScript `\s` character class (WhiteSpace ∪ LineTerminator):
space, tab, LF, VT, FF, CR, NBSP, U+1680, U+2000–U+200A, LS, PS, U+202F,
U+205F, U+3000, BOM.  `String.prototype.trim` strips exactly this set. -/
def jsWhitespace (c : Char) : Bool :=
  c = ' ' || c = '\t' || c = '\n' || c = '\r' || c = '\x0b' || c = '\x0c' ||
  c = '\u00a0' || c = '\u1680' || (0x2000 ≤ c.toNat && c.toNat ≤ 0x200a) ||
  c = '\u2028' || c = '\u2029' || c = '\u202f' || c = '\u205f' ||
  c = '\u3000' || c = '\ufeff'

/-- The JavaScript LineTerminator class: the characters that `.` in a regex
(without the `s` flag) refuses to match. -/
def jsLineTerm (c : Char) : Bool :=
  c = '\n' || c = '\r' || c = '\u2028' || c = '\u2029'

/-- Strip trailing `jsWhitespace` characters. -/
def dropEndWs (l : List Char) : List Char :=
  (l.reverse.dropWhile jsWhitespace).reverse

/-- JavaScript `String.prototype.trim`: strip `jsWhitespace` from both ends. -/
def jsTrim (l : List Char) : List Char :=
  dropEndWs (l.dropWhile jsWhitespace)

/-- JavaScript `text.split('\n')`: split on every LF, keeping empty pieces;
the empty string yields `[""]`. -/
def splitLines : List Char → List (List Char)
  | [] => [[]]
  | c :: rest =>
    match splitLines rest with
    | [] => [[]]
    | l :: ls => if c = '\n' then [] :: l :: ls else (c :: l) :: ls

/-- Join lines back with LF separators (inverse of `splitLines` on
newline-free lines). -/
def joinLines : List (List Char) → List Char
  | [] => []
  | [l] => l
  | l :: l' :: ls => l ++ '\n' :: joinLines (l' :: ls)

/-!
## The speaker-label regex `/^(.+?)\s*\(([^)]+)\)$/`

`matchTail r` decides whether `\s*\(([^)]+)\)$` matches the remainder `r`
exactly to the end, returning the `[^)]+` capture.  Because the literal
`(` after `\s*` is not itself whitespace, backtracking of the greedy `\s*`
can only succeed at the end of the maximal whitespace run, so the run is
taken in full.  `matchGo` implements the non-greedy `(.+?)`: the prefix
grows one character at a time (each character must be accepted by `.`,
i.e. must not be a line terminator) and the first position whose remainder
satisfies `matchTail` wins. -/

/-- Match `\s*\(([^)]+)\)$` against `r`; return the captured token. -/
def matchTail (r : List Char) : Option (List Char) :=
  match r.dropWhile jsWhitespace with
  | [] => none
  | c :: rest =>
    if c = '(' then
      let tok := rest.takeWhile (fun c => c ≠ ')')
      if tok ≠ [] ∧ rest.drop tok.length = [')'] then some tok else none
    else none

/-- Non-greedy prefix search of `/^(.+?)\s*\(([^)]+)\)$/`: `acc` is the
prefix matched by `(.+?)` so far. -/
def matchGo (acc : List Char) : List Char → Option (List Char × List Char)
  | [] => none
  | c :: rest =>
    if jsLineTerm c then none
    else
      match matchTail rest with
      | some tok => some (acc ++ [c], tok)
      | none => matchGo (acc ++ [c]) rest

/-- `trimmed.match(/^(.+?)\s*\(([^)]+)\)$/)`: `some (pre, tok)` when the
line matches with capture groups `pre` and `tok`; `none` otherwise. -/
def matchSpeaker (s : List Char) : Option (List Char × List Char) :=
  matchGo [] s

/-- One parsed speaker turn (`{ speaker, text }` object of the script). -/
structure Segment where
  speaker : String
  text : String
deriving DecidableEq, Repr

/-- The flush step of `parseTranscript`: `if (currentSpeaker && currentText)
segments.push({speaker: currentSpeaker, text: currentText.trim()})`.
JavaScript truthiness of the two strings is non-emptiness. -/
def flushSeg (sp : Option (List Char)) (txt : List Char) : List Segment :=
  match sp with
  | some s => if txt = [] then [] else [⟨⟨s⟩, ⟨jsTrim txt⟩⟩]
  | none => []

/-- The line loop of `parseTranscript`, carrying `currentSpeaker` and
`currentText`; the final flush happens when the lines run out. -/
def parseLinesGo (sp : Option (List Char)) (txt : List Char) :
    List (List Char) → List Segment
  | [] => flushSeg sp txt
  | line :: rest =>
    let trimmed := jsTrim line
    if trimmed = [] then parseLinesGo sp txt rest
    else
      match matchSpeaker trimmed with
      | some (pre, tok) => flushSeg sp txt ++ parseLinesGo (some tok) pre rest
      | none => parseLinesGo sp (txt ++ ' ' :: trimmed) rest

/-- `parseTranscript` of `format-gmr.js`: split on `'\n'` and run the
line loop from the initial state `currentSpeaker = null`,
`currentText = ''`. -/
def parseTranscript (text : String) : List Segment :=
  parseLinesGo none [] (splitLines text.data)

/-!
## `extractSpeakers` of `format-gmr.js`

The global regex loop `while ((match = /\(([^)]+)\)/g.exec(text)) !== null)`
finds leftmost non-overlapping matches: at a `'('` the engine captures the
maximal run of non-`')'` characters; the match succeeds when the run is
non-empty and followed by `')'`, and scanning resumes after that `')'`;
otherwise scanning resumes at the next position.  Captures are filtered by
`speaker && !speaker.includes(' ')` (truthiness plus absence of U+0020),
inserted into a `Set` (first-occurrence dedup), converted by `Array.from`,
sorted by the default comparator (UTF-16 code-unit order) and joined with
`', '`.
-/

/-- UTF-16 code units of a character (JavaScript's string element view). -/
def utf16Units (c : Char) : List Nat :=
  if c.toNat < 0x10000 then [c.toNat]
  else [0xd800 + (c.toNat - 0x10000) / 0x400, 0xdc00 + (c.toNat - 0x10000) % 0x400]

/-- UTF-16 code-unit sequence of a string-as-list. -/
def utf16Key (l : List Char) : List Nat :=
  (l.map utf16Units).flatten

/-- Lexicographic `≤` on code-unit sequences: the order used by the default
`Array.prototype.sort` comparator on strings. -/
def lexLe : List Nat → List Nat → Bool
  | [], _ => true
  | _ :: _, [] => false
  | a :: as, b :: bs => if a < b then true else if b < a then false else lexLe as bs

/-- Insert into a list sorted by `lexLe ∘ utf16Key`. -/
def insertSorted (x : List Char) : List (List Char) → List (List Char)
  | [] => [x]
  | y :: ys => if lexLe (utf16Key x) (utf16Key y) then x :: y :: ys else y :: insertSorted x ys

/-- Sort by UTF-16 code-unit order (the result of `.sort()` on distinct
strings is this order, whatever algorithm the engine uses). -/
def sortSpeakers (l : List (List Char)) : List (List Char) :=
  l.foldr insertSorted []

/-- `Set.prototype.add`: keep first occurrence, preserve insertion order. -/
def addToSet (l : List (List Char)) (x : List Char) : List (List Char) :=
  if x ∈ l then l else l ++ [x]

/-- The `exec` loop of `/\(([^)]+)\)/g`.  The fuel argument (one unit per
consumed character, `length` at the start) only makes the recursion
structural; each step consumes at least one character, so fuel never runs
out. -/
def scanParensAux : Nat → List Char → List (List Char)
  | 0, _ => []
  | _ + 1, [] => []
  | fuel + 1, c :: rest =>
    if c = '(' then
      let tok := rest.takeWhile (fun c => c ≠ ')')
      if tok ≠ [] ∧ rest.drop tok.length ≠ [] then
        tok :: scanParensAux fuel (rest.drop (tok.length + 1))
      else
        scanParensAux fuel rest
    else scanParensAux fuel rest

/-- All captures of `/\(([^)]+)\)/g` over the text, in match order. -/
def scanParens (l : List Char) : List (List Char) :=
  scanParensAux l.length l

/-- The deduplicated, filtered, sorted speaker list of `extractSpeakers`. -/
def extractSpeakersList (text : String) : List (List Char) :=
  sortSpeakers
    (((scanParens text.data).filter (fun t => !(t.contains ' '))).foldl addToSet [])

/-- `extractSpeakers` of `format-gmr.js`:
`Array.from(speakers).sort().join(', ')`. -/
def extractSpeakers (text : String) : String :=
  String.intercalate ", " ((extractSpeakersList text).map (fun t => ⟨t⟩))

/-!
## Spec-side comparison definitions

These two definitions are NOT translations of the source; they follow the
words of the specification, to be compared against the source-derived
functions above.
-/

/-- Spec-side: decides whether a (trimmed) line "ends with a parenthesized
single token (a parenthesized span with no internal whitespace)" — the end
of the line must be `'(' tok ')'` with `tok` a non-empty run free of
whitespace and parentheses. -/
def specEndsWithSingleToken (s : List Char) : Bool :=
  match s.reverse with
  | ')' :: rest =>
    let tokRev := rest.takeWhile (fun c => !(jsWhitespace c) && c ≠ '(' && c ≠ ')')
    tokRev ≠ [] &&
      (match rest.drop tokRev.length with
       | '(' :: _ => true
       | _ => false)
  | _ => false

/-- Spec-side: collect "every parenthesized span of non-whitespace,
non-paren characters occurring anywhere in the text" — every position is
examined, so overlapping occurrences are all found. -/
def specScanAux : Nat → List Char → List (List Char)
  | 0, _ => []
  | _ + 1, [] => []
  | fuel + 1, c :: rest =>
    if c = '(' then
      let tok := rest.takeWhile (fun c => !(jsWhitespace c) && c ≠ '(' && c ≠ ')')
      (match rest.drop tok.length with
       | ')' :: _ => if tok ≠ [] then tok :: specScanAux fuel rest else specScanAux fuel rest
       | _ => specScanAux fuel rest)
    else specScanAux fuel rest

/-- Spec-side `extractSpeakers`: distinct qualifying spans, sorted and
joined with `', '`. -/
def specExtractSpeakers (text : String) : String :=
  String.intercalate ", "
    ((sortSpeakers ((specScanAux text.data.length text.data).foldl addToSet [])).map
      (fun t => ⟨t⟩))

/-!
## The transcribe script (`src/unnamed/part_000`)

Control-flow model of the CLI: the two guard clauses call
`process.exit(1)`; the completion callback of `exec` merely `return`s on
error after printing `'❌ Transcription failed:' + error.message`, so the
Node process, having nothing further pending, terminates with the default
exit code 0.
-/

/-- Outcome reported by the external transcription engine subprocess. -/
inductive ExecResult where
  | success (stdout stderr : String)
  | failure (message : String)
deriving DecidableEq

/-- Observable outcome of one run of the transcribe command: final exit
code and the messages printed via `console.error`. -/
structure RunOutcome where
  exitCode : Nat
  errorMessages : List String
deriving DecidableEq

/-- The transcribe command: argument guard (`process.exit(1)`), file-exists
guard (`process.exit(1)`), then `exec`; on engine failure the callback
prints the message and returns, leaving the default exit code 0. -/
def transcribeRun (audioFileNameGiven : Bool) (audioFileExists : Bool)
    (result : ExecResult) : RunOutcome :=
  if !audioFileNameGiven then
    ⟨1, ["❌ Error: Please provide an audio file name"]⟩
  else if !audioFileExists then
    ⟨1, ["❌ Error: File not found"]⟩
  else
    match result with
    | .failure msg => ⟨0, ["❌ Transcription failed: " ++ msg]⟩
    | .success _ _ => ⟨0, []⟩

/-!
## The document template of `format-gmr.js`

Content model of the docx tree handed to `new Document(...)`: paragraphs
are either the `{ text: ... }` form or the `{ children: [TextRun...] }`
form.  Style constants (font, size, margins, borders, colors) carry no
content and are not modelled.
-/

/-- A `TextRun` as constructed by the script: its text and bold flag. -/
structure DocRun where
  text : String
  bold : Bool
deriving DecidableEq, Repr

/-- A `Paragraph` as constructed by the script. -/
inductive DocChild where
  | textPara (text : String)
  | runsPara (runs : List DocRun)
deriving DecidableEq, Repr

/-- Concatenated text content of a run list. -/
def runsText : List DocRun → String
  | [] => ""
  | r :: rs => r.text ++ runsText rs

/-- Text content of a paragraph. -/
def paraText : DocChild → String
  | .textPara t => t
  | .runsPara rs => runsText rs

/-- The per-segment paragraph:
`TextRun(segment.speaker + ':\t', bold)` then `TextRun(segment.text)`. -/
def segmentPara (s : Segment) : DocChild :=
  .runsPara [⟨s.speaker ++ ":\t", true⟩, ⟨s.text, false⟩]

/-- The `children` array of the document section: one paragraph per
segment, a blank paragraph, `[End of Audio]`, a blank paragraph, and
`Duration: <duration> minutes`. -/
def docBodyChildren (segments : List Segment) (duration : String) : List DocChild :=
  segments.map segmentPara ++
    [ .textPara ""
    , .runsPara [⟨"[End of Audio]", true⟩]
    , .textPara ""
    , .runsPara [⟨"Duration: " ++ duration ++ " minutes", true⟩] ]

/-- The two-line page header: title paragraph, then the speaker-list
paragraph (the one carrying the ruled bottom border). -/
def docHeaderChildren (baseFilename speakers : String) : List DocChild :=
  [ .textPara baseFilename, .textPara speakers ]

/-!
## Helper lemmas: `dropWhile` and `jsTrim`
-/

theorem dropWhile_head_not {p : Char → Bool} :
    ∀ (l : List Char) {c r}, l.dropWhile p = c :: r → p c = false := by
  intro l
  induction l with
  | nil => intro c r h; simp [List.dropWhile] at h
  | cons a l ih =>
    intro c r h
    rw [List.dropWhile_cons] at h
    by_cases ha : p a
    · simp [ha] at h; exact ih h
    · simp [ha] at h
      rcases h with ⟨h1, _⟩
      rw [← h1]
      exact Bool.of_not_eq_true ha

theorem dropWhile_exists_append {α : Type} (p : α → Bool) (l : List α) :
    ∃ t, t ++ l.dropWhile p = l := by
  induction l with
  | nil => exact ⟨[], rfl⟩
  | cons a l ih =>
    by_cases ha : p a
    · obtain ⟨t, ht⟩ := ih
      exact ⟨a :: t, by simp [List.dropWhile_cons, ha, ht]⟩
    · exact ⟨[], by simp [List.dropWhile_cons, ha]⟩

theorem dropWhile_concat_of_neg {p : Char → Bool} {c : Char} (hc : p c = false) :
    ∀ l : List Char, ∃ m, (l ++ [c]).dropWhile p = m ++ [c] := by
  intro l
  induction l with
  | nil => exact ⟨[], by simp [List.dropWhile_cons, hc]⟩
  | cons a l ih =>
    by_cases ha : p a
    · obtain ⟨m, hm⟩ := ih
      exact ⟨m, by simp [List.dropWhile_cons, ha, hm]⟩
    · exact ⟨a :: l, by simp [List.dropWhile_cons, ha]⟩

theorem jsTrim_nil : jsTrim [] = [] := rfl

/-- The first character of a (non-empty) trimmed line is not whitespace. -/
theorem jsTrim_head_not_ws {l : List Char} {c : Char} {r : List Char}
    (h : jsTrim l = c :: r) : jsWhitespace c = false := by
  unfold jsTrim dropEndWs at h
  obtain ⟨t, ht⟩ := dropWhile_exists_append jsWhitespace (l.dropWhile jsWhitespace).reverse
  have hd : l.dropWhile jsWhitespace = c :: (r ++ t.reverse) := by
    have := congrArg List.reverse ht
    rw [List.reverse_append, List.reverse_reverse] at this
    rw [← this, h]
    simp
  exact dropWhile_head_not _ hd

/-- The last character of a (non-empty) trimmed line is not whitespace. -/
theorem jsTrim_concat_not_ws {l m : List Char} {c : Char}
    (h : jsTrim l = m ++ [c]) : jsWhitespace c = false := by
  unfold jsTrim dropEndWs at h
  have h' : (l.dropWhile jsWhitespace).reverse.dropWhile jsWhitespace = c :: m.reverse := by
    have := congrArg List.reverse h
    rw [List.reverse_reverse] at this
    rw [this]
    simp
  exact dropWhile_head_not _ h'

/-- A non-empty trimmed line splits off its (non-whitespace) last character. -/
theorem jsTrim_concat_decomp {l : List Char} (h : jsTrim l ≠ []) :
    ∃ m c, jsTrim l = m ++ [c] ∧ jsWhitespace c = false := by
  rcases List.eq_nil_or_concat (jsTrim l) with h0 | ⟨m, c, hm⟩
  · exact absurd h0 h
  · rw [List.concat_eq_append] at hm
    exact ⟨m, c, hm, jsTrim_concat_not_ws hm⟩

/-- Trimming a list ending in a non-whitespace character keeps that last
character (in particular the trim is non-empty). -/
theorem jsTrim_concat_eq {c : Char} (hc : jsWhitespace c = false) (l : List Char) :
    ∃ m, jsTrim (l ++ [c]) = m ++ [c] := by
  unfold jsTrim dropEndWs
  obtain ⟨m, hm⟩ := dropWhile_concat_of_neg hc l
  refine ⟨m, ?_⟩
  rw [hm, List.reverse_append]
  simp [List.dropWhile_cons, hc]

theorem jsTrim_ne_nil_concat {c : Char} (hc : jsWhitespace c = false) (l : List Char) :
    jsTrim (l ++ [c]) ≠ [] := by
  obtain ⟨m, hm⟩ := jsTrim_concat_eq hc l
  simp [hm]

/-- `trim` is idempotent. -/
theorem jsTrim_idem (l : List Char) : jsTrim (jsTrim l) = jsTrim l := by
  rcases h : jsTrim l with _ | ⟨c, r⟩
  · rfl
  · have hc : jsWhitespace c = false := jsTrim_head_not_ws h
    obtain ⟨m, c', hm, hc'⟩ := jsTrim_concat_decomp (l := l) (by simp [h])
    rw [← h]
    have h1 : (jsTrim l).dropWhile jsWhitespace = jsTrim l := by
      rw [h, List.dropWhile_cons, hc]
      simp
    have h2 : jsTrim (jsTrim l) = dropEndWs ((jsTrim l).dropWhile jsWhitespace) := rfl
    rw [h2, h1, hm]
    unfold dropEndWs
    rw [List.reverse_append]
    simp [List.dropWhile_cons, hc']

/-!
## Helper lemmas: the speaker-label regex
-/

theorem matchSpeaker_nil : matchSpeaker [] = none := rfl

/-- A leading whitespace character is absorbed by `\s*`. -/
theorem matchTail_cons_ws {c : Char} (hc : jsWhitespace c = true) (r : List Char) :
    matchTail (c :: r) = matchTail r := by
  unfold matchTail
  rw [List.dropWhile_cons, hc]
  simp

/-- Without a `'('` the tail pattern cannot match. -/
theorem matchTail_none_of_no_paren {r : List Char} (h : '(' ∉ r) :
    matchTail r = none := by
  unfold matchTail
  rcases hd : r.dropWhile jsWhitespace with _ | ⟨c, rest⟩
  · rfl
  · have hc : c ∈ r := by
      obtain ⟨t, ht⟩ := dropWhile_exists_append jsWhitespace r
      rw [← ht, hd]
      simp
    have : c ≠ '(' := fun hcp => h (hcp ▸ hc)
    simp [this]

/-- A successful tail match captures a non-empty token. -/
theorem matchTail_tok_ne {r tok : List Char} (h : matchTail r = some tok) :
    tok ≠ [] := by
  unfold matchTail at h
  rcases hd : r.dropWhile jsWhitespace with _ | ⟨c, rest⟩ <;> rw [hd] at h
  · exact absurd h (by simp)
  · by_cases hc : c = '('
    · simp only [hc, if_true] at h
      split at h
      · rename_i hg
        cases h
        exact hg.1
      · exact absurd h (by simp)
    · simp [hc] at h

/-- Without a `'('` in the line the whole regex cannot match. -/
theorem matchGo_none_of_no_paren :
    ∀ (s acc : List Char), '(' ∉ s → matchGo acc s = none := by
  intro s
  induction s with
  | nil => intro acc _; rfl
  | cons c rest ih =>
    intro acc h
    unfold matchGo
    by_cases ht : jsLineTerm c
    · simp [ht]
    · have h1 : '(' ∉ rest := fun hm => h (List.mem_cons_of_mem _ hm)
      rw [matchTail_none_of_no_paren h1]
      simp [ht]
      exact ih _ h1

/-- A successful match captures a non-empty token. -/
theorem matchGo_tok_ne :
    ∀ {s acc pre tok : List Char}, matchGo acc s = some (pre, tok) → tok ≠ [] := by
  intro s
  induction s with
  | nil => intro acc pre tok h; exact absurd h (by simp [matchGo])
  | cons c rest ih =>
    intro acc pre tok h
    unfold matchGo at h
    by_cases hlt : jsLineTerm c
    · simp [hlt] at h
    · rw [if_neg (by simp [hlt])] at h
      rcases hmt : matchTail rest with _ | tok' <;> rw [hmt] at h
      · exact ih h
      · cases h
        exact matchTail_tok_ne hmt

/-- The non-greedy prefix of a successful match ends in a non-whitespace
character: were the last prefix character whitespace, the strictly shorter
prefix one step earlier would already have matched. -/
theorem matchGo_pre_concat :
    ∀ (s acc pre tok : List Char),
      (matchTail s = none ∨ ∃ c r, s = c :: r ∧ jsWhitespace c = false) →
      matchGo acc s = some (pre, tok) →
      ∃ m c, pre = m ++ [c] ∧ jsWhitespace c = false := by
  intro s
  induction s with
  | nil => intro acc pre tok _ h; exact absurd h (by simp [matchGo])
  | cons c rest ih =>
    intro acc pre tok hh h
    unfold matchGo at h
    by_cases hlt : jsLineTerm c
    · simp [hlt] at h
    · rw [if_neg (by simp [hlt])] at h
      rcases hmt : matchTail rest with _ | tok' <;> rw [hmt] at h
      · exact ih _ _ _ (Or.inl hmt) h
      · cases h
        refine ⟨acc, c, rfl, ?_⟩
        rcases hh with hnone | ⟨c', r', hcr, hws⟩
        · by_contra hws
          rw [matchTail_cons_ws (Bool.of_not_eq_false hws) rest, hmt] at hnone
          exact absurd hnone (by simp)
        · cases hcr
          exact hws

/-- On a trimmed line a successful match has a prefix capture ending in a
non-whitespace character. -/
theorem matchSpeaker_trim_pre_concat {l pre tok : List Char}
    (h : matchSpeaker (jsTrim l) = some (pre, tok)) :
    ∃ m c, pre = m ++ [c] ∧ jsWhitespace c = false := by
  rcases ht : jsTrim l with _ | ⟨c, r⟩ <;> rw [ht] at h
  · exact absurd h (by simp [matchSpeaker_nil])
  · exact matchGo_pre_concat _ _ _ _
      (Or.inr ⟨c, r, rfl, jsTrim_head_not_ws ht⟩) h

/-!
## Helper lemmas: the parse loop, `splitLines` and `joinLines`
-/

/-- With no current speaker nothing can ever be flushed from the
accumulator, so before the first label line the accumulated text is
irrelevant. -/
theorem parseLinesGo_none_txt_irrel :
    ∀ (lines : List (List Char)) (t₁ t₂ : List Char),
      parseLinesGo none t₁ lines = parseLinesGo none t₂ lines := by
  intro lines
  induction lines with
  | nil => intro t₁ t₂; rfl
  | cons line rest ih =>
    intro t₁ t₂
    unfold parseLinesGo
    by_cases he : jsTrim line = []
    · simp only [he, if_true]
      exact ih t₁ t₂
    · simp only [he, if_false]
      rcases hm : matchSpeaker (jsTrim line) with _ | ⟨pre, tok⟩
      · exact ih _ _
      · rfl

/-- Step equation: a line that is blank after trimming is skipped. -/
theorem parseLinesGo_cons_blank {line : List Char} (h : jsTrim line = [])
    (sp : Option (List Char)) (txt : List Char) (rest : List (List Char)) :
    parseLinesGo sp txt (line :: rest) = parseLinesGo sp txt rest := by
  simp only [parseLinesGo, h, if_true]

/-- Step equation: a line on which the label regex succeeds flushes and
resets the state. -/
theorem parseLinesGo_cons_label {line pre tok : List Char}
    (h : matchSpeaker (jsTrim line) = some (pre, tok))
    (sp : Option (List Char)) (txt : List Char) (rest : List (List Char)) :
    parseLinesGo sp txt (line :: rest) =
      flushSeg sp txt ++ parseLinesGo (some tok) pre rest := by
  have hne : jsTrim line ≠ [] := by
    intro he
    rw [he, matchSpeaker_nil] at h
    exact absurd h (by simp)
  simp only [parseLinesGo, hne, if_false, h]

/-- Step equation: a non-blank line on which the label regex fails is
appended to the accumulator as continuation text. -/
theorem parseLinesGo_cons_cont {line : List Char} (hne : jsTrim line ≠ [])
    (h : matchSpeaker (jsTrim line) = none)
    (sp : Option (List Char)) (txt : List Char) (rest : List (List Char)) :
    parseLinesGo sp txt (line :: rest) =
      parseLinesGo sp (txt ++ ' ' :: jsTrim line) rest := by
  simp only [parseLinesGo, hne, if_false, h]

/-- Leading lines on which the label regex fails are skipped up to the
(irrelevant) accumulator. -/
theorem parseLinesGo_skip :
    ∀ (pre lines : List (List Char)) (t : List Char),
      (∀ l ∈ pre, matchSpeaker (jsTrim l) = none) →
      parseLinesGo none t (pre ++ lines) = parseLinesGo none [] lines := by
  intro pre
  induction pre with
  | nil => intro lines t _; exact parseLinesGo_none_txt_irrel lines t []
  | cons line rest ih =>
    intro lines t h
    have hline : matchSpeaker (jsTrim line) = none := h line (by simp)
    have hrest : ∀ l ∈ rest, matchSpeaker (jsTrim l) = none :=
      fun l hl => h l (List.mem_cons_of_mem _ hl)
    rw [List.cons_append]
    by_cases he : jsTrim line = []
    · rw [parseLinesGo_cons_blank he]
      exact ih lines t hrest
    · rw [parseLinesGo_cons_cont he hline]
      exact ih lines _ hrest

/-- If no line matches the label regex the output is empty. -/
theorem parseLinesGo_none_all_nomatch
    {lines : List (List Char)} (t : List Char)
    (h : ∀ l ∈ lines, matchSpeaker (jsTrim l) = none) :
    parseLinesGo none t lines = [] := by
  have := parseLinesGo_skip lines [] t h
  rw [List.append_nil] at this
  rw [this]
  rfl

theorem splitLines_ne_nil : ∀ cs : List Char, splitLines cs ≠ [] := by
  intro cs
  induction cs with
  | nil => simp [splitLines]
  | cons c rest ih =>
    unfold splitLines
    rcases h : splitLines rest with _ | ⟨l, ls⟩
    · simp
    · by_cases hc : c = '\n' <;> simp [hc]

theorem mem_splitLines_no_nl :
    ∀ (cs : List Char) (l : List Char), l ∈ splitLines cs → '\n' ∉ l := by
  intro cs
  induction cs with
  | nil =>
    intro l hl
    simp [splitLines] at hl
    simp [hl]
  | cons c rest ih =>
    intro l hl
    unfold splitLines at hl
    rcases h : splitLines rest with _ | ⟨x, xs⟩ <;> rw [h] at hl
    · simp at hl
      simp [hl]
    · by_cases hc : c = '\n'
      · simp [hc] at hl
        rcases hl with hl | hl | hl
        · simp [hl]
        · exact ih l (by rw [h, hl]; simp)
        · exact ih l (by rw [h]; exact List.mem_cons_of_mem _ hl)
      · simp [hc] at hl
        rcases hl with hl | hl
        · intro hmem
          rw [hl] at hmem
          rcases List.mem_cons.mp hmem with h1 | h1
          · exact hc h1.symm
          · exact ih x (by rw [h]; simp) h1
        · exact ih l (by rw [h]; exact List.mem_cons_of_mem _ hl)

theorem splitLines_no_nl_self {a : List Char} (h : '\n' ∉ a) :
    splitLines a = [a] := by
  induction a with
  | nil => rfl
  | cons c rest ih =>
    have hc : c ≠ '\n' := fun hc => h (by simp [hc])
    have hrest : '\n' ∉ rest := fun hm => h (List.mem_cons_of_mem _ hm)
    unfold splitLines
    rw [ih hrest]
    simp [hc]

theorem splitLines_append_nl {a : List Char} (b : List Char) (h : '\n' ∉ a) :
    splitLines (a ++ '\n' :: b) = a :: splitLines b := by
  induction a with
  | nil =>
    simp only [List.nil_append]
    simp only [splitLines]
    rcases hb : splitLines b with _ | ⟨x, xs⟩
    · exact absurd hb (splitLines_ne_nil b)
    · simp
  | cons c rest ih =>
    have hc : c ≠ '\n' := fun hc => h (by simp [hc])
    have hrest : '\n' ∉ rest := fun hm => h (List.mem_cons_of_mem _ hm)
    rw [List.cons_append]
    simp only [splitLines]
    rw [ih hrest]
    simp [hc]

theorem splitLines_joinLines :
    ∀ ls : List (List Char), ls ≠ [] → (∀ l ∈ ls, '\n' ∉ l) →
      splitLines (joinLines ls) = ls := by
  intro ls
  induction ls with
  | nil => intro h _; exact absurd rfl h
  | cons l rest ih =>
    intro _ h
    rcases rest with _ | ⟨l', ls'⟩
    · exact splitLines_no_nl_self (h l (by simp))
    · rw [joinLines, splitLines_append_nl _ (h l (by simp))]
      rw [ih (by simp) (fun x hx => h x (List.mem_cons_of_mem _ hx))]

/-!
## Helper lemmas: the `extractSpeakers` pipeline
-/

theorem mem_insertSorted {t x : List Char} :
    ∀ l, t ∈ insertSorted x l → t = x ∨ t ∈ l := by
  intro l
  induction l with
  | nil => intro h; simp [insertSorted] at h; exact Or.inl h
  | cons y ys ih =>
    intro h
    unfold insertSorted at h
    by_cases hle : lexLe (utf16Key x) (utf16Key y)
    · rw [if_pos hle] at h
      rcases List.mem_cons.mp h with h | h
      · exact Or.inl h
      · exact Or.inr h
    · rw [if_neg hle] at h
      rcases List.mem_cons.mp h with h | h
      · exact Or.inr (by simp [h])
      · rcases ih h with h | h
        · exact Or.inl h
        · exact Or.inr (List.mem_cons_of_mem _ h)

theorem mem_sortSpeakers {t : List Char} :
    ∀ l, t ∈ sortSpeakers l → t ∈ l := by
  intro l
  induction l with
  | nil => intro h; exact absurd h (by simp [sortSpeakers])
  | cons x xs ih =>
    intro h
    have hstep : sortSpeakers (x :: xs) = insertSorted x (sortSpeakers xs) := rfl
    rw [hstep] at h
    rcases mem_insertSorted _ h with h | h
    · simp [h]
    · exact List.mem_cons_of_mem _ (ih h)

theorem mem_foldl_addToSet {t : List Char} :
    ∀ (l : List (List Char)) (acc : List (List Char)),
      t ∈ l.foldl addToSet acc → t ∈ acc ∨ t ∈ l := by
  intro l
  induction l with
  | nil => intro acc h; exact Or.inl h
  | cons x xs ih =>
    intro acc h
    rw [List.foldl_cons] at h
    rcases ih (addToSet acc x) h with h | h
    · unfold addToSet at h
      by_cases hx : x ∈ acc
      · rw [if_pos hx] at h
        exact Or.inl h
      · rw [if_neg hx] at h
        rcases List.mem_append.mp h with h | h
        · exact Or.inl h
        · simp at h
          exact Or.inr (by simp [h])
    · exact Or.inr (List.mem_cons_of_mem _ h)

theorem scanParensAux_mem_ne_nil {t : List Char} :
    ∀ (fuel : Nat) (l : List Char), t ∈ scanParensAux fuel l → t ≠ [] := by
  intro fuel
  induction fuel with
  | zero => intro l h; exact absurd h (by simp [scanParensAux])
  | succ fuel ih =>
    intro l h
    rcases l with _ | ⟨c, rest⟩
    · exact absurd h (by simp [scanParensAux])
    · unfold scanParensAux at h
      by_cases hc : c = '('
      · rw [if_pos hc] at h
        by_cases hg : rest.takeWhile (fun c => c ≠ ')') ≠ [] ∧
            rest.drop (rest.takeWhile (fun c => c ≠ ')')).length ≠ []
        · simp only [if_pos hg] at h
          rcases List.mem_cons.mp h with h | h
          · rw [h]; exact hg.1
          · exact ih _ h
        · simp only [if_neg hg] at h
          exact ih _ h
      · rw [if_neg hc] at h
        exact ih _ h

/-- Every entry of the speaker list is a non-empty capture containing no
space character. -/
theorem mem_extractSpeakersList {text : String} {t : List Char}
    (h : t ∈ extractSpeakersList text) : t ≠ [] ∧ ' ' ∉ t := by
  unfold extractSpeakersList at h
  have h1 := mem_sortSpeakers _ h
  rcases mem_foldl_addToSet _ _ h1 with h2 | h2
  · exact absurd h2 (by simp)
  · have h3 := List.mem_filter.mp h2
    refine ⟨scanParensAux_mem_ne_nil _ _ h3.1, ?_⟩
    have h4 := h3.2
    simp only [Bool.not_eq_eq_eq_not, Bool.not_true] at h4
    intro hsp
    have h5 : t.elem ' ' = true := List.elem_eq_true_of_mem hsp
    have h6 : t.contains ' ' = t.elem ' ' := rfl
    rw [h6, h5] at h4
    exact absurd h4 (by simp)

/-!
## Helper lemmas: the C8 output invariant
-/

/-- Invariant of the line loop: if the pending speaker token is non-empty
and the accumulator is empty or ends in a non-whitespace character, every
emitted segment has a non-empty speaker and non-empty, trim-fixed text. -/
theorem parseLinesGo_inv :
    ∀ (lines : List (List Char)) (sp : Option (List Char)) (txt : List Char),
      (∀ s, sp = some s → s ≠ []) →
      (txt = [] ∨ ∃ m c, txt = m ++ [c] ∧ jsWhitespace c = false) →
      ∀ seg ∈ parseLinesGo sp txt lines,
        seg.speaker ≠ "" ∧ seg.text ≠ "" ∧ jsTrim seg.text.data = seg.text.data := by
  intro lines
  induction lines with
  | nil =>
    intro sp txt hsp htxt seg hseg
    rcases sp with _ | s
    · exact absurd hseg (by simp [parseLinesGo, flushSeg])
    · simp only [parseLinesGo, flushSeg] at hseg
      by_cases htz : txt = []
      · rw [if_pos htz] at hseg
        exact absurd hseg (by simp)
      · rw [if_neg htz] at hseg
        simp at hseg
        rcases htxt with htxt | ⟨m, c, hmc, hcw⟩
        · exact absurd htxt htz
        · have htrim : jsTrim txt ≠ [] := by
            rw [hmc]
            exact jsTrim_ne_nil_concat hcw m
          constructor
          · rw [hseg]
            simp only [ne_eq]
            intro hcontra
            have : s = [] := by
              have := congrArg String.data hcontra
              simpa using this
            exact hsp s rfl this
          · constructor
            · rw [hseg]
              simp only [ne_eq]
              intro hcontra
              have : jsTrim txt = [] := by
                have := congrArg String.data hcontra
                simpa using this
              exact htrim this
            · rw [hseg]
              exact jsTrim_idem txt
  | cons line rest ih =>
    intro sp txt hsp htxt seg hseg
    by_cases he : jsTrim line = []
    · rw [parseLinesGo_cons_blank he] at hseg
      exact ih sp txt hsp htxt seg hseg
    · rcases hm : matchSpeaker (jsTrim line) with _ | ⟨pre, tok⟩
      · rw [parseLinesGo_cons_cont he hm] at hseg
        refine ih sp _ hsp ?_ seg hseg
        right
        obtain ⟨m, c, hmc, hcw⟩ := jsTrim_concat_decomp he
        exact ⟨txt ++ ' ' :: m, c, by rw [hmc]; simp, hcw⟩
      · rw [parseLinesGo_cons_label hm] at hseg
        rcases List.mem_append.mp hseg with hflush | htail
        · -- the flushed segment: same argument as the final flush
          rcases sp with _ | s
          · exact absurd hflush (by simp [flushSeg])
          · simp only [flushSeg] at hflush
            by_cases htz : txt = []
            · rw [if_pos htz] at hflush
              exact absurd hflush (by simp)
            · rw [if_neg htz] at hflush
              simp at hflush
              rcases htxt with htxt | ⟨m, c, hmc, hcw⟩
              · exact absurd htxt htz
              · have htrim : jsTrim txt ≠ [] := by
                  rw [hmc]
                  exact jsTrim_ne_nil_concat hcw m
                constructor
                · rw [hflush]
                  simp only [ne_eq]
                  intro hcontra
                  have : s = [] := by
                    have := congrArg String.data hcontra
                    simpa using this
                  exact hsp s rfl this
                · constructor
                  · rw [hflush]
                    simp only [ne_eq]
                    intro hcontra
                    have : jsTrim txt = [] := by
                      have := congrArg String.data hcontra
                      simpa using this
                    exact htrim this
                  · rw [hflush]
                    exact jsTrim_idem txt
        · refine ih (some tok) pre ?_ ?_ seg htail
          · intro s hs
            cases hs
            exact matchGo_tok_ne hm
          · right
            exact matchSpeaker_trim_pre_concat hm

/-!
## Claims
-/

/-- **C1, counterexample.**  The claim says a trimmed line ending in a
parenthesized span with internal whitespace is never treated as a
speaker-label line (no flush, speaker unchanged, line appended as
continuation).  On `"Hi (JIM)\nBye (not sure)"` the second line ends in
`(not sure)` — internal whitespace — yet the code flushes `{JIM, "Hi"}`
and sets the speaker to `"not sure"`; under the claim the output would be
the single segment `{JIM, "Hi Bye (not sure)"}`. -/
theorem claimC1_counterexample :
    parseTranscript "Hi (JIM)\nBye (not sure)" =
      [⟨"JIM", "Hi"⟩, ⟨"not sure", "Bye"⟩] ∧
    parseTranscript "Hi (JIM)\nBye (not sure)" ≠
      [⟨"JIM", "Hi Bye (not sure)"⟩] := by
  decide

/-- **C1, amended.**  A trimmed line is treated as a speaker-label line
exactly when the regex `/^(.+?)\s*\(([^)]+)\)$/` matches it; the
parenthesized token is `[^)]+`, which MAY contain internal whitespace.  On
any such line the parser flushes the pending segment (when speaker and
accumulated text are non-empty) and resets the state to the two captures. -/
theorem claimC1_amended (sp : Option (List Char)) (txt line : List Char)
    (rest : List (List Char)) (pre tok : List Char)
    (h : matchSpeaker (jsTrim line) = some (pre, tok)) :
    parseLinesGo sp txt (line :: rest) =
      flushSeg sp txt ++ parseLinesGo (some tok) pre rest :=
  parseLinesGo_cons_label h sp txt rest

/-- **C1, witness** for the amended claim at the line `"Bye (not sure)"`,
whose captured token `"not sure"` contains internal whitespace. -/
theorem claimC1_witness :
    matchSpeaker (jsTrim ("Bye (not sure)").data) =
      some (("Bye").data, ("not sure").data) ∧
    parseLinesGo (some ("JIM").data) ("Hi").data [("Bye (not sure)").data] =
      flushSeg (some ("JIM").data) ("Hi").data ++
        parseLinesGo (some ("not sure").data) ("Bye").data [] :=
  ⟨by decide, claimC1_amended _ _ _ _ _ _ (by decide)⟩

/-- **C2, counterexample.**  In `"Hi (A B)"` no line's trimmed form ends
with a parenthesized single token (span without internal whitespace), yet
`parseTranscript` returns a non-empty sequence, because the code's regex
token `[^)]+` admits whitespace. -/
theorem claimC2_counterexample :
    ((splitLines ("Hi (A B)").data).all
      (fun l => !(specEndsWithSingleToken (jsTrim l)))) = true ∧
    parseTranscript "Hi (A B)" = [⟨"A B", "Hi"⟩] := by
  decide

/-- **C2, amended.**  For every input text in which no line's trimmed form
matches the label regex `/^(.+?)\s*\(([^)]+)\)$/` (non-empty prefix, then
a parenthesized run of non-`')'` characters at end of line),
`parseTranscript` returns the empty segment sequence. -/
theorem claimC2_amended (text : String)
    (h : ∀ l ∈ splitLines text.data, matchSpeaker (jsTrim l) = none) :
    parseTranscript text = [] :=
  parseLinesGo_none_all_nomatch [] h

/-- **C2, witness**: a two-line text with no label line parses to `[]`. -/
theorem claimC2_witness :
    (∀ l ∈ splitLines ("hello\nworld").data, matchSpeaker (jsTrim l) = none) ∧
    parseTranscript "hello\nworld" = [] :=
  ⟨by decide, claimC2_amended _ (by decide)⟩

/-- **C3.**  The three-line example parses to exactly the three segments in
order; repeated speaker tokens in non-adjacent turns are not merged. -/
theorem claimC3 :
    parseTranscript "Hello there (BOB)\nHow are you (ALICE)\nGood thanks (BOB)" =
      [⟨"BOB", "Hello there"⟩, ⟨"ALICE", "How are you"⟩, ⟨"BOB", "Good thanks"⟩] := by
  decide

/-- **C4.**  `"(BOB)\n(ALICE)"` parses to the empty sequence (neither line
matches the label regex, which demands a non-empty prefix before the
parenthesized token, so nothing is ever flushed). -/
theorem claimC4 : parseTranscript "(BOB)\n(ALICE)" = [] := by
  decide

/-- **C5.**  Lines preceding the first line that matches the speaker-label
regex contribute nothing: the output on the whole text equals the output
on the suffix of the text starting at the first matching line (and is
empty when no line matches, the suffix then being the empty text). -/
theorem claimC5 (text : String) :
    parseTranscript text =
      parseTranscript
        ⟨joinLines ((splitLines text.data).dropWhile
          (fun l => (matchSpeaker (jsTrim l)).isNone))⟩ := by
  have htake : ∀ l ∈ (splitLines text.data).takeWhile
      (fun l => (matchSpeaker (jsTrim l)).isNone),
      matchSpeaker (jsTrim l) = none := by
    intro l hl
    have hp := List.mem_takeWhile_imp hl
    exact Option.isNone_iff_eq_none.mp hp
  rcases hd : (splitLines text.data).dropWhile
      (fun l => (matchSpeaker (jsTrim l)).isNone) with _ | ⟨d, ds⟩
  · have hLHS : parseTranscript text = [] := by
      unfold parseTranscript
      rw [← List.takeWhile_append_dropWhile
        (fun l => (matchSpeaker (jsTrim l)).isNone) (splitLines text.data)]
      rw [hd, List.append_nil]
      exact parseLinesGo_none_all_nomatch [] htake
    rw [hLHS]
    rfl
  · have hnl : ∀ l ∈ d :: ds, '\n' ∉ l := by
      intro l hl
      obtain ⟨t, ht⟩ := dropWhile_exists_append
        (fun l => (matchSpeaker (jsTrim l)).isNone) (splitLines text.data)
      exact mem_splitLines_no_nl text.data l
        (by rw [← ht, hd]; exact List.mem_append_right _ hl)
    have hds : splitLines (joinLines (d :: ds)) = d :: ds :=
      splitLines_joinLines _ (by simp) hnl
    unfold parseTranscript
    have hRd : (String.mk (joinLines (d :: ds))).data = joinLines (d :: ds) := rfl
    rw [hRd, hds]
    rw [← List.takeWhile_append_dropWhile
      (fun l => (matchSpeaker (jsTrim l)).isNone) (splitLines text.data)]
    rw [hd]
    exact parseLinesGo_skip _ _ _ htake

/-- **C6, counterexample.**  The claim says `extractSpeakers` collects
every parenthesized span of non-whitespace, non-paren characters anywhere
in the text.  In `"(A B(C)"` the span `(C)` occurs (content `"C"`: no
whitespace, no parens), and the spec-side collector returns `"C"`; the
code returns `""`, because the global regex consumes `"(A B(C)"` as one
match whose capture `"A B(C"` is then discarded by the space filter, and
scanning resumes after the `')'`. -/
theorem claimC6_counterexample :
    specExtractSpeakers "(A B(C)" = "C" ∧ extractSpeakers "(A B(C)" = "" := by
  decide

/-- **C6, amended.**  `extractSpeakers` scans the full text with the global
regex `/\(([^)]+)\)/g` (leftmost, non-overlapping matches; a capture is a
non-empty run of non-`')'` characters and may contain `'('` or whitespace
other than space), keeps the captures containing no space character,
deduplicates them, sorts and joins with `", "` — so every returned token
is non-empty and space-free; in particular on
`"a (BOB) b (ALICE) c (BOB)"` the result is `"ALICE, BOB"`. -/
theorem claimC6_amended (text : String) (t : List Char)
    (h : t ∈ extractSpeakersList text) :
    (t ≠ [] ∧ ' ' ∉ t) ∧
    extractSpeakers "a (BOB) b (ALICE) c (BOB)" = "ALICE, BOB" :=
  ⟨mem_extractSpeakersList h, by decide⟩

/-- **C6, witness** at the token `"BOB"` of the example text. -/
theorem claimC6_witness :
    ("BOB").data ∈ extractSpeakersList "a (BOB) b (ALICE) c (BOB)" ∧
    ((("BOB").data ≠ [] ∧ ' ' ∉ ("BOB").data) ∧
      extractSpeakers "a (BOB) b (ALICE) c (BOB)" = "ALICE, BOB") :=
  ⟨by decide, claimC6_amended "a (BOB) b (ALICE) c (BOB)" ("BOB").data (by decide)⟩

/-- **C7.**  A line whose trimmed form is exactly a parenthesized token —
`'('`, then a run containing no `'('`, then `')'` — is never recognized as
a speaker-label line (the regex needs a non-empty prefix before the
parenthesized group, and no later `'('` exists to start one); the line is
appended to the accumulator as continuation text and the current speaker
is unchanged. -/
theorem claimC7 (sp : Option (List Char)) (txt line : List Char)
    (rest : List (List Char)) (tok : List Char)
    (h1 : jsTrim line = '(' :: (tok ++ [')'])) (h2 : '(' ∉ tok) :
    matchSpeaker (jsTrim line) = none ∧
    parseLinesGo sp txt (line :: rest) =
      parseLinesGo sp (txt ++ ' ' :: jsTrim line) rest := by
  have hnp : '(' ∉ tok ++ [')'] := by
    intro hm
    rcases List.mem_append.mp hm with hm | hm
    · exact h2 hm
    · simp at hm
  have hlt : jsLineTerm '(' = false := by decide
  have hnone : matchSpeaker ('(' :: (tok ++ [')'])) = none := by
    show matchGo [] ('(' :: (tok ++ [')'])) = none
    simp only [matchGo, hlt, Bool.false_eq_true, if_false,
      matchTail_none_of_no_paren hnp]
    exact matchGo_none_of_no_paren _ _ hnp
  have hm : matchSpeaker (jsTrim line) = none := by rw [h1]; exact hnone
  have hne : jsTrim line ≠ [] := by rw [h1]; simp
  exact ⟨hm, parseLinesGo_cons_cont hne hm sp txt rest⟩

/-- **C7, witness** at the line `" (BOB) "` (trimming to `"(BOB)"`) with a
current speaker and accumulated text in place. -/
theorem claimC7_witness :
    jsTrim (" (BOB) ").data = '(' :: (("BOB").data ++ [')']) ∧
    '(' ∉ ("BOB").data ∧
    (matchSpeaker (jsTrim (" (BOB) ").data) = none ∧
      parseLinesGo (some ("ANA").data) ("x").data [(" (BOB) ").data] =
        parseLinesGo (some ("ANA").data)
          (("x").data ++ ' ' :: jsTrim (" (BOB) ").data) []) :=
  ⟨by decide, by decide,
    claimC7 (some ("ANA").data) ("x").data (" (BOB) ").data [] ("BOB").data
      (by decide) (by decide)⟩

/-- **C8.**  Every segment `parseTranscript` emits has a non-empty speaker,
and non-empty text equal to its own trim. -/
theorem claimC8 (text : String) (seg : Segment) (h : seg ∈ parseTranscript text) :
    seg.speaker ≠ "" ∧ seg.text ≠ "" ∧ jsTrim seg.text.data = seg.text.data :=
  parseLinesGo_inv (splitLines text.data) none []
    (fun _ hs => absurd hs (by simp)) (Or.inl rfl) seg h

/-- **C8, witness** at `"Hi (BOB)"` and its single emitted segment. -/
theorem claimC8_witness :
    (⟨"BOB", "Hi"⟩ : Segment) ∈ parseTranscript "Hi (BOB)" ∧
    ((⟨"BOB", "Hi"⟩ : Segment).speaker ≠ "" ∧
      (⟨"BOB", "Hi"⟩ : Segment).text ≠ "" ∧
      jsTrim (⟨"BOB", "Hi"⟩ : Segment).text.data =
        (⟨"BOB", "Hi"⟩ : Segment).text.data) :=
  ⟨by decide, claimC8 "Hi (BOB)" ⟨"BOB", "Hi"⟩ (by decide)⟩

/-- **C9.**  When the transcription engine reports an error the transcribe
command prints the message and the callback returns without
`process.exit`, so the process ends with exit code 0; exit code 1 arises
exactly for a missing CLI argument or a missing audio file. -/
theorem claimC9 :
    (∀ msg : String,
      (transcribeRun true true (.failure msg)).exitCode = 0 ∧
      ("❌ Transcription failed: " ++ msg) ∈
        (transcribeRun true true (.failure msg)).errorMessages) ∧
    (∀ (arg file : Bool) (r : ExecResult),
      (transcribeRun arg file r).exitCode = 1 ↔ (arg = false ∨ file = false)) := by
  constructor
  · intro msg
    exact ⟨rfl, by simp [transcribeRun]⟩
  · intro arg file r
    cases arg <;> cases file <;> cases r <;> simp [transcribeRun]

/-- **C10.**  The document body is, in order: one paragraph per segment
whose text content is `speaker ++ ":\t" ++ text`, then an empty paragraph,
`[End of Audio]`, an empty paragraph, and `Duration: <duration> minutes`;
with zero segments exactly the four trailing paragraphs remain, and the
page header always has its two lines. -/
theorem claimC10 (segs : List Segment) (d title spk : String) :
    (docBodyChildren segs d).length = segs.length + 4 ∧
    ((docBodyChildren segs d).take segs.length).map paraText =
      segs.map (fun s => s.speaker ++ ":\t" ++ s.text) ∧
    (docBodyChildren segs d).drop segs.length =
      [ .textPara "", .runsPara [⟨"[End of Audio]", true⟩], .textPara "",
        .runsPara [⟨"Duration: " ++ d ++ " minutes", true⟩] ] ∧
    (docHeaderChildren title spk).length = 2 ∧
    docBodyChildren [] d =
      [ .textPara "", .runsPara [⟨"[End of Audio]", true⟩], .textPara "",
        .runsPara [⟨"Duration: " ++ d ++ " minutes", true⟩] ] := by
  refine ⟨?_, ?_, ?_, rfl, rfl⟩
  · simp [docBodyChildren]
  · have htake : (docBodyChildren segs d).take segs.length =
        segs.map segmentPara := by
      unfold docBodyChildren
      rw [List.take_left' (by simp)]
    rw [htake, List.map_map]
    apply List.map_congr_left
    intro s _
    show paraText (segmentPara s) = s.speaker ++ ":\t" ++ s.text
    simp [segmentPara, paraText, runsText]
  · unfold docBodyChildren
    rw [List.drop_left' (by simp)]

end TranscriptTool
